import Mathlib

/-!
OpenMP kernel benchmarks: matrix kernels and rectangle-rule integration

A shallow embedding of the kernels of `omp/secmat.cpp`, `omp/2dmat.cpp`,
`omp/2dmatnested.cpp`, `omp/synpi.cpp` and `omp/pi.cpp`.

Conventions of the embedding.

* `double` is an abstract scalar type `α`.  The matrix kernels only need the
  operations `0`, `+`, `-`, `*` and no law about them, so whatever is proved of
  them holds for IEEE-754 doubles bit for bit.  Where a statement needs exact
  arithmetic the scalar type is a semiring or a field and the statement says so.
* `int`/`long` are mathematical integers; an index `i*n+j` is computed without
  wrap-around, which is what the source does as long as `n*n` fits an `int`.
* A C `for (i = 0; i < n; i++)` loop is a left fold over `0, 1, .., n-1`.
* An OpenMP work-sharing loop runs each of its iterations exactly once, in an
  order chosen by the runtime; the order is an explicit argument.
-/

namespace OmpBench

/-! ## Buffers and loops -/

/-- An output buffer of `double`s together with a ghost record of the stores
performed on it, oldest first.  The record is not program state: no kernel
reads it. -/
structure Buf (α : Type) where
  cells : List α
  log : List (Nat × α)

/-- The assignment `c[idx] = v`. -/
def Buf.store {α : Type} (c : Buf α) (idx : Nat) (v : α) : Buf α :=
  { cells := c.cells.set idx v, log := c.log ++ [(idx, v)] }

/-- A sequence of assignments `c[idx] = v`, performed from left to right. -/
def Buf.stores {α : Type} (c : Buf α) (ws : List (Nat × α)) : Buf α :=
  ws.foldl (fun m w => m.store w.1 w.2) c

/-- The read `a[idx]` of an input buffer. -/
def rd {α : Type} [Zero α] (a : List α) (idx : Nat) : α :=
  a.getD idx 0

/-- The flat row-major index `i*n+j`, computed on `int`s. -/
def idx (i : Nat) (n : Int) (j : Nat) : Nat :=
  ((i : Int) * n + (j : Int)).toNat

/-- The loop `for (int i = 0; i < n; i++) body`, threading the state through
the iterations; no iteration runs when `n ≤ 0`. -/
def forLoop {σ : Type} (n : Int) (body : σ → Nat → σ) (init : σ) : σ :=
  (List.range n.toNat).foldl body init

/-! ## `omp/secmat.cpp`: sequential kernels -/

section SeqKernels

variable {α : Type} [Zero α] [Add α] [Sub α] [Mul α]

end SeqKernels

/-! ## `omp/secmat.cpp`: parallel kernels -/

/-- The order in which an OpenMP work-sharing loop runs its iterations, as a
function of the team size asked for and of the trip count.  The runtime picks
it; the kernels take it as an argument. -/
abbrev Schedule := Int → Nat → List Nat

/-- Every iteration of a work-sharing loop is run exactly once. -/
def Schedule.ExactlyOnce (s : Schedule) : Prop :=
  ∀ (t : Int) (m : Nat), (s t m).Perm (List.range m)

/-- A team of one thread runs the iterations in index order. -/
def Schedule.SerialAtOne (s : Schedule) : Prop :=
  ∀ m : Nat, s 1 m = List.range m

/-- The schedule that runs the iterations in index order whatever the team. -/
def Schedule.inOrder : Schedule := fun _ m => List.range m

section ParKernels

variable {α : Type} [Zero α] [Add α] [Sub α] [Mul α]

/-- Embedding of `add_par` of secmat.cpp: the `i` loop is a work-sharing loop
of a team of `threads`. -/
def add_par (a b : List α) (c : Buf α) (n : Int) (threads : Int) (sched : Schedule) : Buf α :=
  (sched threads n.toNat).foldl (fun c i =>
    forLoop n (fun c j =>
      c.store (idx i n j) (rd a (idx i n j) + rd b (idx i n j))) c) c

/-- Embedding of `sub_par` of secmat.cpp. -/
def sub_par (a b : List α) (c : Buf α) (n : Int) (threads : Int) (sched : Schedule) : Buf α :=
  (sched threads n.toNat).foldl (fun c i =>
    forLoop n (fun c j =>
      c.store (idx i n j) (rd a (idx i n j) - rd b (idx i n j))) c) c

/-- Embedding of `trans_par` of secmat.cpp. -/
def trans_par (a : List α) (t : Buf α) (n : Int) (threads : Int) (sched : Schedule) : Buf α :=
  (sched threads n.toNat).foldl (fun t i =>
    forLoop n (fun t j =>
      t.store (idx j n i) (rd a (idx i n j))) t) t

/-- Embedding of `mul_par` of secmat.cpp: only the `i` loop is shared out, the
`k` loop of a cell runs whole inside one iteration. -/
def mul_par (a b : List α) (c : Buf α) (n : Int) (threads : Int) (sched : Schedule) : Buf α :=
  (sched threads n.toNat).foldl (fun c i =>
    forLoop n (fun c j =>
      let s := forLoop n (fun s k => s + rd a (idx i n k) * rd b (idx k n j)) (0 : α)
      c.store (idx i n j) s) c) c

end ParKernels

/-! ## `omp/2dmat.cpp` and `omp/2dmatnested.cpp` -/

/-- A `vector<vector<double>>`. -/
abbrev Mat (α : Type) := List (List α)

/-- The read `A[i][k]`. -/
def Mat.rd {α : Type} [Zero α] (A : Mat α) (i k : Nat) : α :=
  (A.getD i []).getD k 0

/-- The assignment `C[i][j] = v`. -/
def Mat.store {α : Type} (C : Mat α) (i j : Nat) (v : α) : Mat α :=
  C.modify (fun row => row.set j v) i

/-- A sequence of assignments `C[i][j] = v`, performed from left to right. -/
def Mat.stores {α : Type} (C : Mat α) (ws : List ((Nat × Nat) × α)) : Mat α :=
  ws.foldl (fun M w => M.store w.1.1 w.1.2 w.2) C

section Granularity

variable {α : Type} [Zero α] [Add α] [Mul α]

end Granularity

section PiKernels

variable {α : Type} [Field α]

/-- Embedding of `pi_seq` of synpi.cpp. -/
def pi_seq (steps : Int) : α :=
  let step : α := 1 / (steps : α)
  let sum : α := forLoop steps (fun sum i =>
    let x : α := ((i : α) + 0.5) * step
    sum + 4 / (1 + x * x)) 0
  step * sum

/-- Embedding of `pi_atomic` of synpi.cpp.  `order` lists the iterations in the
order in which their atomic updates `sum += fx` take effect: whatever the
division of the iterations among the threads and the interleaving of the
threads, it is an arrangement of `0, .., steps-1`. -/
def pi_atomic (steps : Int) (order : List Nat) : α :=
  let step : α := 1 / (steps : α)
  let sum : α := order.foldl (fun sum (i : Nat) =>
    let x : α := ((i : α) + 0.5) * step
    let fx : α := 4 / (1 + x * x)
    sum + fx) 0
  step * sum

/-- Embedding of `pi_critical` of synpi.cpp.  `order` lists the iterations in
the order in which they enter the critical section. -/
def pi_critical (steps : Int) (order : List Nat) : α :=
  let step : α := 1 / (steps : α)
  let sum : α := order.foldl (fun sum (i : Nat) =>
    let x : α := ((i : α) + 0.5) * step
    let fx : α := 4 / (1 + x * x)
    sum + fx) 0
  step * sum

/-- Embedding of `pi_reduction` of synpi.cpp.  `chunks` lists, thread by
thread, the iterations the thread runs, in the order it runs them.  Every
thread accumulates into a private copy of `sum` that starts at `0`; at the end
of the loop the private copies are added to the original `sum`, one after the
other. -/
def pi_reduction (steps : Int) (chunks : List (List Nat)) : α :=
  let step : α := 1 / (steps : α)
  let partials : List α := chunks.map fun chunk =>
    chunk.foldl (fun sum (i : Nat) =>
      let x : α := ((i : α) + 0.5) * step
      sum + 4 / (1 + x * x)) 0
  let sum : α := partials.foldl (fun sum p => sum + p) 0
  step * sum

/-- The constant `num_steps` of pi.cpp. -/
def pi_num_steps : Int := 100000

/-- Embedding of `main` of pi.cpp: the value it prints. -/
def pi_main (chunks : List (List Nat)) : α :=
  let step : α := 1 / (pi_num_steps : α)
  let partials : List α := chunks.map fun chunk =>
    chunk.foldl (fun sum (i : Nat) =>
      let x : α := ((i : α) + 0.5) * step
      sum + 4 / (1 + x * x)) 0
  let sum : α := partials.foldl (fun sum p => sum + p) 0
  step * sum

end PiKernels

/-- The claimed contribution of index `i` to the sum:
`4/(1+((i+0.5)*step)^2)` with `step = 1/steps`. -/
def contribution {α : Type} [Field α] (steps : Int) (i : Nat) : α :=
  4 / (1 + (((i : α) + 0.5) * (1 / (steps : α))) ^ 2)

/-- The claimed result: `step` times the sum of the contributions of the
indices of `[0, steps)`, each taken once. -/
def rectangleRule {α : Type} [Field α] (steps : Int) : α :=
  (1 / (steps : α)) * ∑ i ∈ Finset.range steps.toNat, contribution steps i

/-! ## `omp/secmat.cpp` `main`: the section dispatcher -/

/-- The constant `sections_threads` of secmat.cpp `main`. -/
def sections_threads : Int := 4

/-- The value of `inner_threads` computed by secmat.cpp `main` from the value
`max_threads` of `omp_get_max_threads()`; `/` on `int` truncates. -/
def inner_threads (max_threads : Int) : Int :=
  let inner := Int.tdiv max_threads sections_threads
  if inner < 1 then 1 else inner

/-- The four tasks of the `sections` region. -/
inductive SectionTask where
  | add_par
  | sub_par
  | mul_par
  | trans_par
  deriving DecidableEq

/-- The calls made by the four sections of secmat.cpp `main`, in source order,
each with the `threads` argument it is given. -/
def section_calls (max_threads : Int) : List (SectionTask × Int) :=
  let inner_threads := inner_threads max_threads
  [(SectionTask.add_par, inner_threads), (SectionTask.sub_par, inner_threads),
   (SectionTask.mul_par, inner_threads), (SectionTask.trans_par, inner_threads)]

/-- The four output buffers of secmat.cpp `main`. -/
structure SectionOutputs (α : Type) where
  Cadd : Buf α
  Csub : Buf α
  Cmul : Buf α
  Ctrans : Buf α

/-- Embedding of the `sections` region of secmat.cpp `main`: every section
calls its kernel on its own output buffer; the sections share no output, so the
region's effect is the four kernels' effects. -/
def run_sections {α : Type} [Zero α] [Add α] [Sub α] [Mul α]
    (A B : List α) (out : SectionOutputs α) (n : Int) (max_threads : Int)
    (sched : Schedule) : SectionOutputs α :=
  let inner_threads := inner_threads max_threads
  { Cadd := add_par A B out.Cadd n inner_threads sched
    Csub := sub_par A B out.Csub n inner_threads sched
    Cmul := mul_par A B out.Cmul n inner_threads sched
    Ctrans := trans_par A out.Ctrans n inner_threads sched }

/-! ## Speedup reports -/

/-- A line of a speedup report. -/
inductive SpeedupLine (τ : Type) where
  /-- The quotient `seq / par` was computed and printed. -/
  | quotient (seq par : τ)
  /-- The text `(no time)` was printed. -/
  | noTime
  deriving DecidableEq

/-- The line divides by zero. -/
def SpeedupLine.DividesByZero {τ : Type} [Zero τ] : SpeedupLine τ → Prop
  | .quotient _ par => par = 0
  | .noTime => False

/-- Embedding of the speedup report of synpi.cpp `main`: the lines for atomic,
critical and reduction, from the elapsed times `ts`, `ta`, `tc`, `tr`. -/
def synpi_speedups {τ : Type} [Zero τ] [LT τ] [DecidableRel (fun x y : τ => x < y)]
    (ts ta tc tr : τ) : List (SpeedupLine τ) :=
  [ (if ta > 0 then SpeedupLine.quotient ts ta else SpeedupLine.noTime),
    (if tc > 0 then SpeedupLine.quotient ts tc else SpeedupLine.noTime),
    (if tr > 0 then SpeedupLine.quotient ts tr else SpeedupLine.noTime) ]

/-- Embedding of the speedup report of secmat.cpp `main`: the lines for add,
sub, mul and transpose, from the sequential times and `sec_times[0..3]`. -/
def secmat_speedups {τ : Type}
    (t_add_seq t_sub_seq t_mul_seq t_trans_seq : τ) (sec_times : Fin 4 → τ) :
    List (SpeedupLine τ) :=
  [ SpeedupLine.quotient t_add_seq (sec_times 0),
    SpeedupLine.quotient t_sub_seq (sec_times 1),
    SpeedupLine.quotient t_mul_seq (sec_times 2),
    SpeedupLine.quotient t_trans_seq (sec_times 3) ]

/-! ## What a caller observes of a kernel call -/

section Calls

variable {α : Type}

variable [Zero α] [Add α] [Sub α] [Mul α]

end Calls

/-! ## `omp/2dmatnested.cpp` `main`: the runtime settings -/

section RowIterations

variable {α : Type} [Zero α] [Add α] [Sub α] [Mul α]

end RowIterations

theorem Buf.stores_nil {α : Type} (c : Buf α) : c.stores [] = c := rfl

theorem Buf.stores_cons {α : Type} (c : Buf α) (w : Nat × α) (ws : List (Nat × α)) :
    c.stores (w :: ws) = (c.store w.1 w.2).stores ws := rfl

/-- A cell that no store of the sequence addresses keeps its content. -/
theorem Buf.stores_getElem?_of_not_mem {α : Type} (ws : List (Nat × α)) (c : Buf α) (p : Nat)
    (hp : p ∉ ws.map Prod.fst) : (c.stores ws).cells[p]? = c.cells[p]? := by
  induction ws generalizing c with
  | nil => simp [Buf.stores_nil]
  | cons w ws ih =>
    simp only [List.map_cons, List.mem_cons, not_or] at hp
    rw [Buf.stores_cons, ih _ hp.2]
    simp only [Buf.store]
    exact List.getElem?_set_ne (fun h => hp.1 h.symm)

theorem Schedule.inOrder_serialAtOne : Schedule.inOrder.SerialAtOne := fun _ => rfl

theorem Schedule.inOrder_exactlyOnce : Schedule.inOrder.ExactlyOnce :=
  fun _ _ => List.Perm.refl _

/-- An accumulation loop `sum += f i` from `0` is the sum of the terms. -/
theorem foldl_add_eq_sum {M : Type} [AddCommMonoid M] (f : Nat → M) (l : List Nat) :
    l.foldl (fun sum i => sum + f i) 0 = (l.map f).sum := by
  rw [List.sum_eq_foldl, List.foldl_map]

theorem sum_map_range {M : Type} [AddCommMonoid M] (f : Nat → M) (m : Nat) :
    ((List.range m).map f).sum = ∑ i ∈ Finset.range m, f i := by
  induction m with
  | zero => simp
  | succ m ih => rw [List.sum_range_succ, Finset.sum_range_succ, ih]

/-- Whatever the order of the updates, when every index of `[0, m)` is added
once the accumulator ends with the sum over `[0, m)`. -/
theorem foldl_add_perm {M : Type} [AddCommMonoid M] (f : Nat → M) (order : List Nat) (m : Nat)
    (h : order.Perm (List.range m)) :
    order.foldl (fun sum (i : Nat) => sum + f i) 0 = ∑ i ∈ Finset.range m, f i := by
  rw [foldl_add_eq_sum, (h.map f).sum_eq, sum_map_range]

/-- Private partial sums of the chunks, added up one after the other, give the
sum over `[0, m)` when the chunks share out `[0, m)`. -/
theorem foldl_partials_perm {M : Type} [AddCommMonoid M] (f : Nat → M)
    (chunks : List (List Nat)) (m : Nat) (h : chunks.flatten.Perm (List.range m)) :
    (chunks.map fun chunk => chunk.foldl (fun sum i => sum + f i) 0).foldl
        (fun sum p => sum + p) 0
      = ∑ i ∈ Finset.range m, f i := by
  have h1 : (chunks.map fun chunk => chunk.foldl (fun sum i => sum + f i) 0)
      = (chunks.map (List.map f)).map List.sum := by
    rw [List.map_map]
    apply List.map_congr_left
    intro chunk _
    exact foldl_add_eq_sum f chunk
  rw [← List.sum_eq_foldl, h1, ← List.sum_flatten, ← List.map_flatten, (h.map f).sum_eq,
    sum_map_range]

theorem contribution_eq {α : Type} [Field α] (steps : Int) (i : Nat) :
    (4 : α) / (1 + (((i : α) + 0.5) * (1 / (steps : α))) * (((i : α) + 0.5) * (1 / (steps : α))))
      = contribution steps i := by
  unfold contribution
  rw [pow_two]

theorem pi_seq_eq_rectangleRule {α : Type} [Field α] (steps : Int) :
    (pi_seq steps : α) = rectangleRule steps := by
  simp only [pi_seq, forLoop, contribution_eq, rectangleRule]
  rw [foldl_add_perm (contribution steps) _ _ (List.Perm.refl _)]

theorem pi_atomic_eq_rectangleRule {α : Type} [Field α] (steps : Int) (order : List Nat)
    (h : order.Perm (List.range steps.toNat)) :
    (pi_atomic steps order : α) = rectangleRule steps := by
  simp only [pi_atomic, contribution_eq, rectangleRule]
  rw [foldl_add_perm (contribution steps) _ _ h]

theorem pi_critical_eq_rectangleRule {α : Type} [Field α] (steps : Int) (order : List Nat)
    (h : order.Perm (List.range steps.toNat)) :
    (pi_critical steps order : α) = rectangleRule steps := by
  simp only [pi_critical, contribution_eq, rectangleRule]
  rw [foldl_add_perm (contribution steps) _ _ h]

theorem pi_reduction_eq_rectangleRule {α : Type} [Field α] (steps : Int)
    (chunks : List (List Nat)) (h : chunks.flatten.Perm (List.range steps.toNat)) :
    (pi_reduction steps chunks : α) = rectangleRule steps := by
  simp only [pi_reduction, contribution_eq, rectangleRule]
  rw [foldl_partials_perm (contribution steps) _ _ h]

theorem pi_main_eq_rectangleRule {α : Type} [Field α]
    (chunks : List (List Nat)) (h : chunks.flatten.Perm (List.range pi_num_steps.toNat)) :
    (pi_main chunks : α) = rectangleRule pi_num_steps := by
  simp only [pi_main, contribution_eq, rectangleRule]
  rw [foldl_partials_perm (contribution pi_num_steps) _ _ h]

/-- C3: with exact (associative, commutative) arithmetic, for every step count
(in particular every `steps > 0`), every division of `[0, steps)` among the
workers and every interleaving of their updates, `pi_atomic`, `pi_critical`
and `pi_reduction` return the value of `pi_seq`: every index `i` of
`[0, steps)` contributes `4/(1+((i+0.5)*step)^2)` exactly once and the result
is `step * sum`.  The reduction of pi.cpp `main` returns that value for its
`num_steps` too. -/
theorem pi_strategies_agree {α : Type} [Field α] (steps : Int)
    (atomicOrder criticalOrder : List Nat) (chunks mainChunks : List (List Nat))
    (ha : atomicOrder.Perm (List.range steps.toNat))
    (hk : criticalOrder.Perm (List.range steps.toNat))
    (hr : chunks.flatten.Perm (List.range steps.toNat))
    (hm : mainChunks.flatten.Perm (List.range pi_num_steps.toNat)) :
    (pi_atomic steps atomicOrder : α) = pi_seq steps ∧
      (pi_critical steps criticalOrder : α) = pi_seq steps ∧
      (pi_reduction steps chunks : α) = pi_seq steps ∧
      (pi_seq steps : α) = rectangleRule steps ∧
      (pi_main mainChunks : α) = pi_seq pi_num_steps := by
  refine ⟨?_, ?_, ?_, pi_seq_eq_rectangleRule steps, ?_⟩
  · rw [pi_atomic_eq_rectangleRule steps _ ha, pi_seq_eq_rectangleRule]
  · rw [pi_critical_eq_rectangleRule steps _ hk, pi_seq_eq_rectangleRule]
  · rw [pi_reduction_eq_rectangleRule steps _ hr, pi_seq_eq_rectangleRule]
  · rw [pi_main_eq_rectangleRule _ hm, pi_seq_eq_rectangleRule]

/-- C3 at a concrete input: four steps over the rationals, two workers. -/
theorem pi_strategies_agree_witness :
    ([2, 0, 3, 1] : List Nat).Perm (List.range (4 : Int).toNat) ∧
      ([3, 2, 1, 0] : List Nat).Perm (List.range (4 : Int).toNat) ∧
      ([[2, 3], [0, 1]] : List (List Nat)).flatten.Perm (List.range (4 : Int).toNat) ∧
      (pi_atomic 4 [2, 0, 3, 1] : ℚ) = pi_seq 4 ∧
      (pi_critical 4 [3, 2, 1, 0] : ℚ) = pi_seq 4 ∧
      (pi_reduction 4 [[2, 3], [0, 1]] : ℚ) = pi_seq 4 :=
  have h1 : ([2, 0, 3, 1] : List Nat).Perm (List.range (4 : Int).toNat) := by decide
  have h2 : ([3, 2, 1, 0] : List Nat).Perm (List.range (4 : Int).toNat) := by decide
  have h3 : ([[2, 3], [0, 1]] : List (List Nat)).flatten.Perm (List.range (4 : Int).toNat) := by
    decide
  have h := pi_strategies_agree (α := ℚ) 4 [2, 0, 3, 1] [3, 2, 1, 0] [[2, 3], [0, 1]]
    [List.range pi_num_steps.toNat] h1 h2 h3 (by rw [List.flatten_singleton])
  ⟨h1, h2, h3, h.1, h.2.1, h.2.2.1⟩

/-! ## C4 and C5 -/

/-- The truncating quotient and the clamp of secmat.cpp `main` compute
`max(1, T div 4)`, for every `T`. -/
theorem inner_threads_eq (T : Int) : inner_threads T = max 1 (T / 4) := by
  simp only [inner_threads, sections_threads]
  rcases le_or_lt 0 T with h | h
  · rw [Int.tdiv_eq_ediv h (by norm_num)]
    omega
  · have h1 : Int.tdiv T 4 = -(Int.tdiv (-T) 4) := by rw [Int.neg_tdiv, neg_neg]
    have h2 : Int.tdiv (-T) 4 = (-T) / 4 := Int.tdiv_eq_ediv (by omega) (by norm_num)
    rw [h1, h2]
    omega

/-- C4: for every thread budget `T` and the section count `S = 4`, the inner
thread count computed by the dispatcher is `max(1, T div S)`, and that value
is the `threads` argument of each of the four dispatched calls `add_par`,
`sub_par`, `mul_par` and `trans_par`. -/
theorem dispatcher_inner_threads {α : Type} [Zero α] [Add α] [Sub α] [Mul α]
    (T : Int) (A B : List α) (out : SectionOutputs α) (n : Int) (sched : Schedule) :
    sections_threads = 4 ∧
      inner_threads T = max 1 (T / sections_threads) ∧
      section_calls T =
        [(SectionTask.add_par, max 1 (T / sections_threads)),
         (SectionTask.sub_par, max 1 (T / sections_threads)),
         (SectionTask.mul_par, max 1 (T / sections_threads)),
         (SectionTask.trans_par, max 1 (T / sections_threads))] ∧
      run_sections A B out n T sched =
        { Cadd := add_par A B out.Cadd n (max 1 (T / sections_threads)) sched
          Csub := sub_par A B out.Csub n (max 1 (T / sections_threads)) sched
          Cmul := mul_par A B out.Cmul n (max 1 (T / sections_threads)) sched
          Ctrans := trans_par A out.Ctrans n (max 1 (T / sections_threads)) sched } := by
  have h : inner_threads T = max 1 (T / sections_threads) := inner_threads_eq T
  refine ⟨rfl, h, ?_, ?_⟩
  · simp only [section_calls, h]
  · simp only [run_sections, h]

/-- C5: for the section count `S = 4` and every thread budget `T ≥ 1`, the
number of section-internal workers `S * inner_threads` exceeds `T` by at most
`S - 1`: `4 * inner_threads ≤ T + 3`. -/
theorem section_workers_within_slack (T : Int) (hT : 1 ≤ T) :
    sections_threads * inner_threads T ≤ T + (sections_threads - 1) ∧
      4 * inner_threads T ≤ T + 3 := by
  rw [inner_threads_eq]
  simp only [sections_threads]
  omega

/-- C5 at a concrete input: a budget of six threads gives four sections of one
worker each. -/
theorem section_workers_within_slack_witness :
    (1 : Int) ≤ 6 ∧ 4 * inner_threads 6 ≤ 6 + 3 :=
  ⟨by decide, (section_workers_within_slack 6 (by decide)).2⟩

/-! ## C6 -/

/-- The guard of synpi.cpp: no line of its report divides by zero, and a line
is a quotient only for a strictly positive parallel time. -/
theorem synpi_speedups_guarded {τ : Type} [Zero τ] [Preorder τ]
    [DecidableRel (fun x y : τ => x < y)] (ts ta tc tr : τ) :
    ∀ line ∈ synpi_speedups ts ta tc tr, ¬ line.DividesByZero := by
  intro line hline
  simp only [synpi_speedups, List.mem_cons, List.mem_singleton, List.not_mem_nil, or_false] at hline
  rcases hline with h | h | h <;> subst h <;> split <;>
    simp only [SpeedupLine.DividesByZero, not_false_eq_true] <;>
    intro h0 <;> simp_all

/-- C6, the report of secmat.cpp at a zero parallel time: with sequential
times of one unit and all the section times zero, every line of the report is
a quotient by zero, where the report of synpi.cpp prints `(no time)` for the
same measurements. -/
theorem secmat_speedups_divide_by_zero :
    secmat_speedups (1 : ℚ) 1 1 1 (fun _ => 0)
        = [SpeedupLine.quotient 1 0, SpeedupLine.quotient 1 0,
           SpeedupLine.quotient 1 0, SpeedupLine.quotient 1 0] ∧
      (∀ line ∈ secmat_speedups (1 : ℚ) 1 1 1 (fun _ => 0), line.DividesByZero) ∧
      synpi_speedups (1 : ℚ) 0 0 0
        = [SpeedupLine.noTime, SpeedupLine.noTime, SpeedupLine.noTime] := by
  refine ⟨rfl, ?_, ?_⟩
  · intro line hline
    simp only [secmat_speedups, List.mem_cons, List.mem_singleton, List.not_mem_nil,
      or_false, or_self] at hline
    subst hline
    rfl
  · simp [synpi_speedups]

/-! ## C7 -/

section Convergence

open Real

end Convergence

end OmpBench
